import Mathlib

/-!
Verification development for the ironite static site generator
(src/generator.rs).  The Rust source is shallowly embedded: strings are
`List Char`, the filesystem tree read by the generator is an explicit
input structure, files written and diagnostics printed to stderr are
explicit outputs, and `io::Result` is `Except`.

Two modelling notes, both forced by the source:
* `replace_placeholders` iterates over a `HashMap<String, String>`.
  A Rust `HashMap` iterates its entries in an unspecified order that may
  change between runs of the process, so the embedding takes the list of
  (placeholder, replacement) pairs in an explicit order; the set of legal
  behaviours of the Rust function is obtained by quantifying over
  permutations of that list.
* `Vec::sort` on `String` keys sorts by the lexicographic byte order of
  UTF-8, which coincides with lexicographic code-point order; `sortStrs`
  below is an insertion sort with that order.
-/

/-- Strings of the Rust source, modelled as lists of characters. -/
abbrev Str := List Char

/-- Unicode White_Space property, as tested by Rust `char::is_whitespace`
(used by `str::split_whitespace` and `str::trim` in `get_tags`). -/
def isWs (c : Char) : Bool :=
  c = ' ' || c = '\t' || c = '\n' || c.toNat = 0xb || c.toNat = 0xc || c = '\r' ||
  c.toNat = 0x85 || c.toNat = 0xa0 || c.toNat = 0x1680 ||
  (0x2000 ≤ c.toNat && c.toNat ≤ 0x200a) ||
  c.toNat = 0x2028 || c.toNat = 0x2029 || c.toNat = 0x202f || c.toNat = 0x205f ||
  c.toNat = 0x3000

/-- Rust `str::trim`: drop whitespace from both ends. -/
def trimStr (s : Str) : Str :=
  ((s.dropWhile isWs).reverse.dropWhile isWs).reverse

/-- Accumulator-based splitter behind `splitWs`. -/
def splitWsAux : Str → Str → List Str
  | [], cur => if cur = [] then [] else [cur.reverse]
  | c :: rest, cur =>
    if isWs c then
      (if cur = [] then splitWsAux rest [] else cur.reverse :: splitWsAux rest [])
    else splitWsAux rest (c :: cur)

/-- Rust `str::split_whitespace`: maximal runs of non-whitespace characters. -/
def splitWs (s : Str) : List Str := splitWsAux s []

/-- Lexicographic order on strings, the order of `Ord` for Rust `String`
restricted to a Boolean test. -/
def lexLe : Str → Str → Bool
  | [], _ => true
  | _ :: _, [] => false
  | a :: as, b :: bs => if a < b then true else if a = b then lexLe as bs else false

/-- Insert one string into a `lexLe`-sorted list, keeping it sorted. -/
def insertSorted (x : Str) : List Str → List Str
  | [] => [x]
  | y :: ys => if lexLe x y then x :: y :: ys else y :: insertSorted x ys

/-- Model of `Vec::sort` on a vector of strings (`tags.sort()` in the
source): a stable sort by `lexLe`. -/
def sortStrs (l : List Str) : List Str := l.foldr insertSorted []

/-- Fuel-indexed scanner behind `strReplace`; replaces leftmost,
non-overlapping occurrences of the nonempty pattern `a :: k'` by `v`,
exactly as Rust `str::replace` does.  The fuel is only there to make the
recursion structural; `strReplace` always supplies enough. -/
def replaceGo (a : Char) (k' v : Str) : Nat → Str → Str
  | _, [] => []
  | 0, s => s
  | fuel + 1, c :: rest =>
    if (a :: k').isPrefixOf (c :: rest) then
      v ++ replaceGo a k' v fuel (rest.drop k'.length)
    else
      c :: replaceGo a k' v fuel rest

/-- Rust `str::replace self from to`: replace every leftmost,
non-overlapping occurrence of `k` in `s` by `v`.  An empty pattern
matches at every character boundary, as in Rust. -/
def strReplace (k v s : Str) : Str :=
  match k with
  | [] => v ++ s.foldr (fun c acc => c :: (v ++ acc)) []
  | a :: k' => replaceGo a k' v s.length s

/-- Embedding of `replace_placeholders` (generator.rs lines 15-21): fold
`str::replace` over the placeholder pairs.  The pair list stands for one
iteration order of the Rust `HashMap`. -/
def replace_placeholders (html_content : Str) (placeholders : List (Str × Str)) : Str :=
  placeholders.foldl (fun acc p => strReplace p.1 p.2 acc) html_content

/-- Placeholder token `$CONTENT`. -/
def kCONTENT : Str := "$CONTENT".data

/-- Placeholder token `$TITLE`. -/
def kTITLE : Str := "$TITLE".data

/-- Placeholder token `$NAVCLOUD`. -/
def kNAVCLOUD : Str := "$NAVCLOUD".data

/-- One entry directory under `entries/`: its directory name, the content
of `content.html` if that file exists and is readable, and the content of
`tags.txt` if that file exists and is readable. -/
structure EntryDir where
  name : Str
  contentHtml : Option Str
  tagsTxt : Option Str
deriving DecidableEq, Repr

/-- Diagnostics the generator prints to stderr (`eprintln!`). -/
inductive Diag where
  | tagsReadError (path : Str)
  | entriesDirMissing
  | noContentHtml (path : Str)
  | readFileFailed (path : Str)
deriving DecidableEq, Repr

/-- One HTML file written by the generator: its output path, the template
it was rendered from, and the placeholder map (in the order the source
lists the pairs) passed to `replace_placeholders`. -/
structure Page where
  path : Str
  template : Str
  pairs : List (Str × Str)
deriving DecidableEq, Repr

/-- Bytes actually written for a page. -/
def renderPage (pg : Page) : Str := replace_placeholders pg.template pg.pairs

/-- Path of an entry directory, as pushed into the tag map
(`entries_dir.flatten(name)`). -/
def entryPath (name : Str) : Str := "entries/".data ++ name

/-- Rust `Path::file_name` for the slash-separated paths the generator
builds: the component after the last `/`. -/
def fileName (p : Str) : Str := (p.reverse.takeWhile (fun c => c ≠ '/')).reverse

/-- Tag-collection loop of `get_tags` (generator.rs lines 54-62): split
the file on whitespace, trim each token, drop empties, deduplicate.
The Rust code collects into a `HashSet`; the model keeps first-seen
order, which only fixes an order the set leaves unspecified. -/
def tagInsert (acc : List Str) (tok : Str) : List Str :=
  let tr := trimStr tok
  if tr = [] then acc else if tr ∈ acc then acc else acc ++ [tr]

def getTagsList (content : Str) : List Str :=
  (splitWs content).foldl tagInsert []

/-- Embedding of `get_tags` (generator.rs lines 45-63): `content` is the
result of `fs::read_to_string(tags_file_path)` (`none` = the read failed).
Returns the tag set together with the diagnostics printed. -/
def get_tags (tags_file_path : Str) (content : Option Str) : List Str × List Diag :=
  match content with
  | none => ([], [Diag.tagsReadError tags_file_path])
  | some c => (getTagsList c, [])

/-- `tags_map.entry(tag).or_insert_with(Vec::new).push(path)`: append
`p` to the vector of key `t`, creating the key if absent.  The Rust map
is a `HashMap`; the association list keeps keys in first-insertion
order, which only fixes an order the map leaves unspecified (the only
consumers sort the keys). -/
def pushTag : List (Str × List Str) → Str → Str → List (Str × List Str)
  | [], t, p => [(t, [p])]
  | (t0, ps) :: rest, t, p =>
    if t0 = t then (t0, ps ++ [p]) :: rest else (t0, ps) :: pushTag rest t p

/-- Body of the per-entry loop of `filter_entries_by_tag`. -/
def tagStep (st : List (Str × List Str) × List Diag) (e : EntryDir) :
    List (Str × List Str) × List Diag :=
  let p := entryPath e.name
  let r := get_tags (p ++ "/tags.txt".data) e.tagsTxt
  (r.1.foldl (fun m t => pushTag m t p) st.1, st.2 ++ r.2)

/-- Embedding of `filter_entries_by_tag` (generator.rs lines 66-95):
`entries` is the list of subdirectories of `entries/` in directory-scan
order (`none` = the root is missing, not a directory, or unreadable).
Returns the tag-to-entry-paths map and the diagnostics printed. -/
def filter_entries_by_tag (entries : Option (List EntryDir)) :
    List (Str × List Str) × List Diag :=
  match entries with
  | none => ([], [Diag.entriesDirMissing])
  | some es => es.foldl tagStep ([], [])

/-- Association-list lookup, the model of `tags_map.get(&tag)`. -/
def lookupTag : List (Str × List Str) → Str → Option (List Str)
  | [], _ => none
  | (t, ps) :: rest, k => if t = k then some ps else lookupTag rest k

/-- Accumulated observable state of `generate_entry_pages`: directories
created, pages written, diagnostics printed. -/
structure EntryGenOut where
  dirs : List Str
  pages : List Page
  diags : List Diag
deriving DecidableEq, Repr

/-- Body of the per-entry loop of `generate_entry_pages` (generator.rs
lines 130-158): the output directory is created (line 140) before
`content.html` is checked (line 143); if the file is missing the entry
is skipped with a diagnostic (line 156). -/
def entryStep (base : Str) (o : EntryGenOut) (e : EntryDir) : EntryGenOut :=
  let title := e.name
  let newEntryDir := "public/entries/".data ++ title
  match e.contentHtml with
  | some c =>
    { dirs := o.dirs ++ [newEntryDir]
      pages := o.pages ++ [⟨newEntryDir ++ "/index.html".data, base,
        [(kCONTENT, c), (kTITLE, title), (kNAVCLOUD, [])]⟩]
      diags := o.diags }
  | none =>
    { dirs := o.dirs ++ [newEntryDir]
      pages := o.pages
      diags := o.diags ++ [Diag.noContentHtml (entryPath e.name)] }

/-- Embedding of `generate_entry_pages` (generator.rs lines 129-160).
`fs::read_dir(entries_dir)?` propagates a failure to open the entries
root (line 130), modelled by the `none` case; directory creation and
file writes themselves are assumed to succeed. -/
def generate_entry_pages (base : Str) (entries : Option (List EntryDir)) :
    Except Unit EntryGenOut :=
  match entries with
  | none => Except.error ()
  | some es => Except.ok (es.foldl (entryStep base) ⟨[], [], []⟩)

/-- Link line for one entry on a tag page
(`format!("<a href=\"../entries/{}/index.html\">{}</a><br>", t, t)`). -/
def tagEntryLink (title : Str) : Str :=
  "<a href=\"../entries/".data ++ title ++ "/index.html\">".data ++ title ++
    "</a><br>".data

/-- Page written for one tag (generator.rs lines 170-188). -/
def tagPage (base tag : Str) (paths : List Str) : Page :=
  let content := paths.foldl (fun acc p => acc ++ tagEntryLink (fileName p)) []
  ⟨"public/".data ++ tag ++ "/index.html".data, base,
    [(kCONTENT, content), (kTITLE, tag), (kNAVCLOUD, [])]⟩

/-- Embedding of `generate_tag_pages` (generator.rs lines 162-192): sort
the keys of the tag map, then emit one page per tag in sorted order. -/
def generate_tag_pages (base : Str) (tags_map : List (Str × List Str)) : List Page :=
  (sortStrs (tags_map.map Prod.fst)).foldl
    (fun pages t =>
      match lookupTag tags_map t with
      | some paths => pages ++ [tagPage base t paths]
      | none => pages)
    []

/-- Link for one tag in the navigation cloud
(`format!("<a href=\"{}/index.html\">{}</a>", tag, tag)`). -/
def navTagLink (tag : Str) : Str :=
  "<a href=\"".data ++ tag ++ "/index.html\">".data ++ tag ++ "</a>".data

/-- Navigation cloud (generator.rs lines 251-257): links for the sorted
tag list, concatenated. -/
def navCloudOf (sortedTags : List Str) : Str :=
  sortedTags.foldl (fun acc t => acc ++ navTagLink t) []

/-- Link line for one entry on the entries listing page. -/
def entriesIndexLink (title : Str) : Str :=
  "<a href=\"".data ++ title ++ "/index.html\">".data ++ title ++ "</a><br>".data

/-- Input tree of one generator run: the three fatal-if-missing source
files, whether the two recursive asset copies succeed, and the entries
root (`none` = missing or unreadable). -/
structure SiteInput where
  baseHtml : Option Str
  aboutHtml : Option Str
  projectName : Option Str
  staticOk : Bool
  imagesOk : Bool
  entries : Option (List EntryDir)
deriving DecidableEq, Repr

/-- Which fatal early exit `generate_site` took. -/
inductive GenErr where
  | readBase
  | readAbout
  | readProject
  | copyStatic
  | copyImages
  | entryPages
deriving DecidableEq, Repr

/-- Observable output of a successful run: directories created and pages
written, in program order. -/
structure SiteOut where
  dirs : List Str
  pages : List Page
deriving DecidableEq, Repr

/-- Embedding of `generate_site` (generator.rs lines 195-312).  Returns
the diagnostics printed and either the fatal error or the output tree.
The entries listing at the end reads back `public/entries/`; the model
assumes a fresh output tree, so the subdirectories found there are
exactly the ones `generate_entry_pages` created this run. -/
def generate_site (inp : SiteInput) : List Diag × Except GenErr SiteOut :=
  match inp.baseHtml with
  | none => ([Diag.readFileFailed "static/base.html".data], Except.error GenErr.readBase)
  | some base =>
  match inp.aboutHtml with
  | none => ([Diag.readFileFailed "static/about.html".data], Except.error GenErr.readAbout)
  | some about =>
  match inp.projectName with
  | none => ([Diag.readFileFailed "projectname.txt".data], Except.error GenErr.readProject)
  | some proj =>
  if inp.staticOk = false then ([], Except.error GenErr.copyStatic)
  else if inp.imagesOk = false then ([], Except.error GenErr.copyImages)
  else
  match generate_entry_pages base inp.entries with
  | Except.error _ => ([], Except.error GenErr.entryPages)
  | Except.ok eo =>
    let fm := filter_entries_by_tag inp.entries
    let tagPages := generate_tag_pages base fm.1
    let sortedTags := sortStrs (fm.1.map Prod.fst)
    let nav := navCloudOf sortedTags
    let parsedAbout := replace_placeholders about [(kNAVCLOUD, nav)]
    let rootPage : Page := ⟨"public/index.html".data, base,
      [(kCONTENT, parsedAbout), (kTITLE, proj), (kNAVCLOUD, [])]⟩
    let titles := sortStrs (eo.dirs.map fileName)
    let entriesContent := titles.foldl (fun acc t => acc ++ entriesIndexLink t) []
    let entriesIndexPage : Page := ⟨"public/entries/index.html".data, base,
      [(kCONTENT, entriesContent), (kTITLE, "Entries".data), (kNAVCLOUD, [])]⟩
    (eo.diags ++ fm.2,
     Except.ok ⟨eo.dirs, eo.pages ++ tagPages ++ [rootPage, entriesIndexPage]⟩)

/-! Lexicographic order: `lexLe` is a total preorder with antisymmetry,
and `sortStrs` sorts, permutes, and is therefore insensitive to the
(unspecified) order in which `HashMap::keys` yields the tag names. -/

/-- Propositional form of `lexLe`. -/
def LexLE (a b : Str) : Prop := lexLe a b = true

theorem lexLe_cons_iff (x y : Char) (xs ys : Str) :
    lexLe (x :: xs) (y :: ys) = true ↔ x < y ∨ (x = y ∧ lexLe xs ys = true) := by
  by_cases h1 : x < y
  · simp [lexLe, h1]
  · by_cases h2 : x = y
    · simp [lexLe, h1, h2]
    · simp [lexLe, h1, h2]

theorem lexLe_refl (a : Str) : lexLe a a = true := by
  induction a with
  | nil => rfl
  | cons c cs ih => simp [lexLe_cons_iff, ih]

theorem lexLe_total (a b : Str) : lexLe a b = true ∨ lexLe b a = true := by
  induction a generalizing b with
  | nil => left; rfl
  | cons c cs ih =>
    cases b with
    | nil => right; rfl
    | cons d ds =>
      rcases lt_trichotomy c d with h | h | h
      · left; simp [lexLe_cons_iff, h]
      · subst h
        rcases ih ds with h2 | h2
        · left; simp [lexLe_cons_iff, h2]
        · right; simp [lexLe_cons_iff, h2]
      · right; simp [lexLe_cons_iff, h]

theorem lexLe_trans (a b c : Str) (hab : lexLe a b = true) (hbc : lexLe b c = true) :
    lexLe a c = true := by
  induction a generalizing b c with
  | nil => rfl
  | cons x xs ih =>
    cases b with
    | nil => simp [lexLe] at hab
    | cons y ys =>
      cases c with
      | nil => simp [lexLe] at hbc
      | cons z zs =>
        rcases (lexLe_cons_iff x y xs ys).mp hab with h1 | ⟨h1, h1r⟩
        · rcases (lexLe_cons_iff y z ys zs).mp hbc with h2 | ⟨h2, _⟩
          · exact (lexLe_cons_iff x z xs zs).mpr (Or.inl (lt_trans h1 h2))
          · exact (lexLe_cons_iff x z xs zs).mpr (Or.inl (h2 ▸ h1))
        · subst h1
          rcases (lexLe_cons_iff x z ys zs).mp hbc with h2 | ⟨h2, h2r⟩
          · exact (lexLe_cons_iff x z xs zs).mpr (Or.inl h2)
          · exact (lexLe_cons_iff x z xs zs).mpr (Or.inr ⟨h2, ih ys zs h1r h2r⟩)

theorem lexLe_antisymm (a b : Str) (hab : lexLe a b = true) (hba : lexLe b a = true) :
    a = b := by
  induction a generalizing b with
  | nil =>
    cases b with
    | nil => rfl
    | cons y ys => simp [lexLe] at hba
  | cons x xs ih =>
    cases b with
    | nil => simp [lexLe] at hab
    | cons y ys =>
      rcases (lexLe_cons_iff x y xs ys).mp hab with h1 | ⟨h1, h1r⟩
      · rcases (lexLe_cons_iff y x ys xs).mp hba with h2 | ⟨h2, _⟩
        · exact absurd h2 (lt_asymm h1)
        · exact absurd h1 (h2 ▸ lt_irrefl x)
      · subst h1
        rcases (lexLe_cons_iff x x ys xs).mp hba with h2 | ⟨_, h2r⟩
        · exact absurd h2 (lt_irrefl x)
        · rw [ih ys h1r h2r]

theorem insertSorted_perm (x : Str) (l : List Str) :
    (insertSorted x l).Perm (x :: l) := by
  induction l with
  | nil => exact List.Perm.refl _
  | cons y ys ih =>
    by_cases h : lexLe x y = true
    · simp [insertSorted, h]
    · simp only [insertSorted, h, if_false]
      exact (ih.cons y).trans (List.Perm.swap x y ys)

theorem sortStrs_perm (l : List Str) : (sortStrs l).Perm l := by
  induction l with
  | nil => exact List.Perm.refl _
  | cons x xs ih => exact (insertSorted_perm x (sortStrs xs)).trans (ih.cons x)

theorem mem_insertSorted (z x : Str) (l : List Str) :
    z ∈ insertSorted x l ↔ z = x ∨ z ∈ l := by
  rw [(insertSorted_perm x l).mem_iff]
  simp

theorem pairwise_insertSorted (x : Str) (l : List Str)
    (h : List.Pairwise LexLE l) : List.Pairwise LexLE (insertSorted x l) := by
  induction l with
  | nil => simp [insertSorted, LexLE]
  | cons y ys ih =>
    rcases List.pairwise_cons.mp h with ⟨hy, hys⟩
    by_cases hxy : lexLe x y = true
    · simp only [insertSorted, hxy, if_true]
      refine List.pairwise_cons.mpr ⟨?_, h⟩
      intro b hb
      rcases List.mem_cons.mp hb with rfl | hb
      · exact hxy
      · exact lexLe_trans x y b hxy (hy b hb)
    · simp only [insertSorted, hxy, if_false]
      refine List.pairwise_cons.mpr ⟨?_, ih hys⟩
      intro b hb
      rcases (mem_insertSorted b x ys).mp hb with hb1 | hb
      · rw [hb1]
        rcases lexLe_total x y with h1 | h1
        · exact absurd h1 hxy
        · exact h1
      · exact hy b hb

theorem sortStrs_pairwise (l : List Str) : List.Pairwise LexLE (sortStrs l) := by
  induction l with
  | nil => simp [sortStrs]
  | cons x xs ih => exact pairwise_insertSorted x (sortStrs xs) ih

theorem sortStrs_eq_of_perm (ks1 ks2 : List Str) (h : ks1.Perm ks2) :
    sortStrs ks1 = sortStrs ks2 := by
  haveI : IsAntisymm Str LexLE := ⟨fun a b => lexLe_antisymm a b⟩
  exact List.eq_of_perm_of_sorted
    ((sortStrs_perm ks1).trans (h.trans (sortStrs_perm ks2).symm))
    (sortStrs_pairwise ks1) (sortStrs_pairwise ks2)

/-! Basic equations of `strReplace` for a nonempty pattern. -/

theorem replaceGo_nil (a : Char) (k' v : Str) (f : Nat) :
    replaceGo a k' v f [] = [] := by
  cases f <;> rfl

theorem replaceGo_cons (a : Char) (k' v : Str) (f : Nat) (c : Char) (rest : Str) :
    replaceGo a k' v (f + 1) (c :: rest) =
      if (a :: k').isPrefixOf (c :: rest) then
        v ++ replaceGo a k' v f (rest.drop k'.length)
      else c :: replaceGo a k' v f rest := rfl

theorem replaceGo_fuel (a : Char) (k' v : Str) :
    ∀ f1 f2 s, s.length ≤ f1 → s.length ≤ f2 →
      replaceGo a k' v f1 s = replaceGo a k' v f2 s := by
  intro f1
  induction f1 with
  | zero =>
    intro f2 s h1 _
    have hs : s = [] := List.eq_nil_of_length_eq_zero (Nat.le_zero.mp h1)
    rw [hs, replaceGo_nil, replaceGo_nil]
  | succ f ih =>
    intro f2 s h1 h2
    cases s with
    | nil => rw [replaceGo_nil, replaceGo_nil]
    | cons c rest =>
      cases f2 with
      | zero => simp at h2
      | succ g =>
        rw [replaceGo_cons, replaceGo_cons]
        have hr : rest.length ≤ f := Nat.lt_succ_iff.mp h1
        have hg : rest.length ≤ g := Nat.lt_succ_iff.mp h2
        by_cases hp : (a :: k').isPrefixOf (c :: rest) = true
        · rw [if_pos hp, if_pos hp,
            ih g (rest.drop k'.length)
              (le_trans (by simp [List.length_drop]) hr)
              (le_trans (by simp [List.length_drop]) hg)]
        · rw [if_neg (by simpa using hp), if_neg (by simpa using hp), ih g rest hr hg]

theorem strReplace_nil (a : Char) (k' v : Str) : strReplace (a :: k') v [] = [] := rfl

theorem strReplace_pos (a : Char) (k' v : Str) (c : Char) (rest : Str)
    (h : (a :: k').isPrefixOf (c :: rest) = true) :
    strReplace (a :: k') v (c :: rest) =
      v ++ strReplace (a :: k') v (rest.drop k'.length) := by
  show replaceGo a k' v (c :: rest).length (c :: rest) = _
  rw [show (c :: rest).length = rest.length + 1 from rfl, replaceGo_cons, if_pos h]
  congr 1
  exact replaceGo_fuel a k' v rest.length (rest.drop k'.length).length _
    (by simp [List.length_drop]) (le_refl _)

theorem strReplace_neg (a : Char) (k' v : Str) (c : Char) (rest : Str)
    (h : (a :: k').isPrefixOf (c :: rest) = false) :
    strReplace (a :: k') v (c :: rest) = c :: strReplace (a :: k') v rest := by
  show replaceGo a k' v (c :: rest).length (c :: rest) = _
  rw [show (c :: rest).length = rest.length + 1 from rfl, replaceGo_cons,
    if_neg (by simp [h])]
  rfl

theorem isPrefixOf_false_iff (k s : Str) : k.isPrefixOf s = false ↔ ¬ (k <+: s) := by
  simp [← List.isPrefixOf_iff_prefix]

/-- Induction on the length of a string, the recursion pattern of
`strReplace`. -/
theorem strLenInd (P : Str → Prop)
    (H : ∀ s, (∀ t, t.length < s.length → P t) → P s) : ∀ s, P s := by
  have main : ∀ n s, s.length = n → P s := by
    intro n
    induction n using Nat.strong_induction_on with
    | _ n ih =>
      intro s hn
      exact H s (fun t ht => ih t.length (hn ▸ ht) t rfl)
  intro s
  exact main s.length s rfl

/-! Structural lemmas about occurrences of a key string in the output of
`strReplace`.  These drive the claims about residual placeholder
tokens. -/

/-- An occurrence of `k` inside `v ++ X` either lies inside `X` or starts
inside `v`, hence begins with a character of `v`. -/
theorem infix_append_cases (k v X : Str) (hk : k ≠ []) (hd : ∀ c ∈ v, c ∉ k) :
    k <:+: v ++ X → k <:+: X := by
  induction v with
  | nil => simp
  | cons b v2 ih =>
    intro h
    rcases List.infix_cons_iff.mp h with hpre | hinf
    · cases k with
      | nil => exact absurd rfl hk
      | cons kh kt =>
        rcases List.cons_prefix_cons.mp hpre with ⟨hb, _⟩
        exact absurd (List.mem_cons_self kh kt)
          (hb ▸ hd b (List.mem_cons_self b v2))
    · exact ih (fun c hc => hd c (List.mem_cons_of_mem b hc)) hinf

/-- Splitting a prefix of `w ++ t` against the boundary. -/
theorem prefix_append_cases : ∀ (w q t : Str), q <+: w ++ t → q <+: w ∨ w <+: q := by
  intro w
  induction w with
  | nil => intro q t _; right; exact List.nil_prefix
  | cons c w2 ih =>
    intro q t hq
    cases q with
    | nil => left; exact List.nil_prefix
    | cons d q2 =>
      rcases List.cons_prefix_cons.mp hq with ⟨hd, hq2⟩
      rcases ih q2 t hq2 with h | h
      · left; exact List.cons_prefix_cons.mpr ⟨hd, h⟩
      · right; exact List.cons_prefix_cons.mpr ⟨hd.symm, h⟩

/-- Every nonempty prefix of `strReplace k v s` (nonempty `v`) is a
prefix of `s` or contains a character of `v`. -/
theorem prefix_strReplace (a : Char) (k' v : Str) (hv : v ≠ []) :
    ∀ s q, q ≠ [] → q <+: strReplace (a :: k') v s → q <+: s ∨ ∃ c ∈ q, c ∈ v := by
  intro s
  induction s using strLenInd with
  | _ s ih =>
  intro q hq hpre
  cases s with
  | nil =>
    rw [strReplace_nil] at hpre
    exact absurd (List.prefix_nil.mp hpre) hq
  | cons c rest =>
    by_cases hp : (a :: k').isPrefixOf (c :: rest) = true
    · rw [strReplace_pos a k' v c rest hp] at hpre
      cases q with
      | nil => exact absurd rfl hq
      | cons d q2 =>
        cases v with
        | nil => exact absurd rfl hv
        | cons e v2 =>
          rcases List.cons_prefix_cons.mp hpre with ⟨hd, _⟩
          right
          exact ⟨d, List.mem_cons_self d q2, hd ▸ List.mem_cons_self e v2⟩
    · rw [strReplace_neg a k' v c rest (Bool.eq_false_iff.mpr hp)] at hpre
      cases q with
      | nil => exact absurd rfl hq
      | cons d q2 =>
        rcases List.cons_prefix_cons.mp hpre with ⟨hd, hq2⟩
        by_cases hq2e : q2 = []
        · left
          rw [hq2e, hd]
          exact List.cons_prefix_cons.mpr ⟨rfl, List.nil_prefix⟩
        · rcases ih rest (by simp) q2 hq2e hq2 with h | h
          · left; exact List.cons_prefix_cons.mpr ⟨hd, h⟩
          · right
            rcases h with ⟨ch, hch, hchv⟩
            exact ⟨ch, List.mem_cons_of_mem d hch, hchv⟩

/-- After replacing `k` by a nonempty `v` that shares no character with
`k`, no occurrence of `k` remains. -/
theorem strReplace_no_key (a : Char) (k' v : Str) (hv : v ≠ [])
    (hd : ∀ c ∈ v, c ∉ (a :: k')) :
    ∀ s, ¬ ((a :: k') <:+: strReplace (a :: k') v s) := by
  intro s
  induction s using strLenInd with
  | _ s ih =>
  intro hinf
  cases s with
  | nil =>
    rw [strReplace_nil] at hinf
    simp at hinf
  | cons c rest =>
    by_cases hp : (a :: k').isPrefixOf (c :: rest) = true
    · rw [strReplace_pos a k' v c rest hp] at hinf
      exact ih (rest.drop k'.length) (by simp [List.length_drop]; omega)
        (infix_append_cases (a :: k') v _ (List.cons_ne_nil a k') hd hinf)
    · rw [strReplace_neg a k' v c rest (Bool.eq_false_iff.mpr hp)] at hinf
      rcases List.infix_cons_iff.mp hinf with hpre | hinf2
      · rcases List.cons_prefix_cons.mp hpre with ⟨ha, hkt⟩
        by_cases hk2 : k' = []
        · subst hk2
          exact hp (List.isPrefixOf_iff_prefix.mpr
            (List.cons_prefix_cons.mpr ⟨ha, List.nil_prefix⟩))
        · rcases prefix_strReplace a k' v hv rest k' hk2 hkt with h | ⟨ch, hch, hchv⟩
          · exact hp (List.isPrefixOf_iff_prefix.mpr
              (List.cons_prefix_cons.mpr ⟨ha, h⟩))
          · exact hd ch hchv (List.mem_cons_of_mem a hch)
      · exact ih rest (by simp) hinf2

/-- Replacing a pattern `p` by a nonempty `v` that shares no character
with `k` cannot create an occurrence of `k` that was not there. -/
theorem strReplace_no_new (a : Char) (p' v k : Str) (hv : v ≠ []) (hk : k ≠ [])
    (hd : ∀ c ∈ v, c ∉ k) :
    ∀ s, ¬ (k <:+: s) → ¬ (k <:+: strReplace (a :: p') v s) := by
  intro s
  induction s using strLenInd with
  | _ s ih =>
  intro hs hinf
  cases s with
  | nil =>
    rw [strReplace_nil] at hinf
    exact hs hinf
  | cons c rest =>
    have hrest : ¬ (k <:+: rest) := fun hco =>
      hs (hco.trans (List.suffix_cons c rest).isInfix)
    by_cases hp : (a :: p').isPrefixOf (c :: rest) = true
    · rw [strReplace_pos a p' v c rest hp] at hinf
      have hdrop : ¬ (k <:+: rest.drop p'.length) := fun hco =>
        hrest (hco.trans (List.drop_suffix p'.length rest).isInfix)
      exact ih (rest.drop p'.length) (by simp [List.length_drop]; omega) hdrop
        (infix_append_cases k v _ hk hd hinf)
    · rw [strReplace_neg a p' v c rest (Bool.eq_false_iff.mpr hp)] at hinf
      rcases List.infix_cons_iff.mp hinf with hpre | hinf2
      · cases k with
        | nil => exact hk rfl
        | cons kh kt =>
          rcases List.cons_prefix_cons.mp hpre with ⟨hkh, hkt⟩
          by_cases hktn : kt = []
          · subst hktn
            exact hs (List.IsPrefix.isInfix
              (List.cons_prefix_cons.mpr ⟨hkh, List.nil_prefix⟩))
          · rcases prefix_strReplace a p' v hv rest kt hktn hkt with h | ⟨ch, hch, hchv⟩
            · exact hs (List.IsPrefix.isInfix (List.cons_prefix_cons.mpr ⟨hkh, h⟩))
            · exact hd ch hchv (List.mem_cons_of_mem kh hch)
      · exact ih rest (by simp) hrest hinf2

/-- Replacement skips over a leading block whose characters do not occur
in the pattern. -/
theorem strReplace_append_disjoint (a : Char) (k' v : Str) :
    ∀ w t, (∀ c ∈ w, c ∉ (a :: k')) →
      strReplace (a :: k') v (w ++ t) = w ++ strReplace (a :: k') v t := by
  intro w
  induction w with
  | nil => intro t _; rfl
  | cons c w2 ih =>
    intro t hd
    have hp : (a :: k').isPrefixOf (c :: (w2 ++ t)) = false := by
      rw [isPrefixOf_false_iff]
      intro hpre
      rcases List.cons_prefix_cons.mp hpre with ⟨ha, _⟩
      refine hd c (List.mem_cons_self c w2) ?_
      rw [← ha]
      exact List.mem_cons_self a k'
    rw [List.cons_append, strReplace_neg a k' v c (w2 ++ t) hp,
      ih t (fun c2 h2 => hd c2 (List.mem_cons_of_mem c h2)), List.cons_append]

/-- Separation of two keys: `k2` is neither a prefix of, nor extends, any
nonempty suffix of `k1`.  This rules out every overlap between an
occurrence of `k2` and an occurrence of `k1`, including containment. -/
def noOv (k1 k2 : Str) : Prop :=
  ∀ w, w ≠ [] → w <:+ k1 → ¬ (k2 <+: w) ∧ ¬ (w <+: k2)

/-- Decidable check for `noOv` over the finitely many suffixes. -/
def noOvB (k1 k2 : Str) : Bool :=
  k1.tails.all (fun w => w.isEmpty || (!(k2.isPrefixOf w) && !(w.isPrefixOf k2)))

theorem noOv_of_noOvB (k1 k2 : Str) (h : noOvB k1 k2 = true) : noOv k1 k2 := by
  intro w hw hsuf
  have hmem : w ∈ k1.tails := (List.mem_tails w k1).mpr hsuf
  have := (List.all_eq_true.mp h) w hmem
  rcases Bool.or_eq_true_iff.mp this with he | hb
  · exact absurd (List.isEmpty_iff.mp he) hw
  · rcases Bool.and_eq_true_iff.mp hb with ⟨h1, h2⟩
    constructor
    · intro hc
      rw [List.isPrefixOf_iff_prefix.mpr hc] at h1
      simp at h1
    · intro hc
      rw [List.isPrefixOf_iff_prefix.mpr hc] at h2
      simp at h2

/-- Replacement of `k2` skips over a leading suffix of a separated key
`k1`. -/
theorem strReplace_append_noOv (a2 : Char) (k2' v2 k1 : Str)
    (h : noOv k1 (a2 :: k2')) :
    ∀ w t, w <:+ k1 →
      strReplace (a2 :: k2') v2 (w ++ t) = w ++ strReplace (a2 :: k2') v2 t := by
  intro w
  induction w with
  | nil => intro t _; rfl
  | cons c w2 ih =>
    intro t hsuf
    have hp : (a2 :: k2').isPrefixOf (c :: (w2 ++ t)) = false := by
      rw [isPrefixOf_false_iff]
      intro hpre
      rcases prefix_append_cases (c :: w2) (a2 :: k2') t hpre with hca | hca
      · exact (h (c :: w2) (List.cons_ne_nil c w2) hsuf).1 hca
      · exact (h (c :: w2) (List.cons_ne_nil c w2) hsuf).2 hca
    rw [List.cons_append, strReplace_neg a2 k2' v2 c (w2 ++ t) hp,
      ih t ((List.suffix_cons c w2).trans hsuf), List.cons_append]

/-- Replacement at an exact leading occurrence of the key. -/
theorem strReplace_append_self (a : Char) (k' v X : Str) :
    strReplace (a :: k') v ((a :: k') ++ X) = v ++ strReplace (a :: k') v X := by
  rw [List.cons_append, strReplace_pos a k' v a (k' ++ X)
    (List.isPrefixOf_iff_prefix.mpr
      (List.cons_prefix_cons.mpr ⟨rfl, List.prefix_append k' X⟩)),
    List.drop_left]

/-- Replacing a key by itself is the identity: the single pass never
re-scans what it inserted. -/
theorem strReplace_self (k : Str) : ∀ s, strReplace k k s = s := by
  cases k with
  | nil =>
    intro s
    show [] ++ s.foldr (fun c acc => c :: ([] ++ acc)) [] = s
    simp
  | cons a k' =>
    intro s
    induction s using strLenInd with
    | _ s ih =>
    cases s with
    | nil => rfl
    | cons c rest =>
      by_cases hp : (a :: k').isPrefixOf (c :: rest) = true
      · rcases List.isPrefixOf_iff_prefix.mp hp with ⟨t, ht⟩
        have hc : c = a := by
          rw [List.cons_append] at ht
          exact (List.cons.injEq a _ c rest).mp ht |>.1 |>.symm
        have hrest : rest = k' ++ t := by
          rw [List.cons_append] at ht
          exact ((List.cons.injEq a _ c rest).mp ht).2.symm
        have hdrop : rest.drop k'.length = t := by
          rw [hrest, List.drop_left]
        rw [strReplace_pos a k' _ c rest hp, hdrop,
          ih t (by rw [hrest]; simp [List.length_append]; omega)]
        rw [← ht]
      · rw [strReplace_neg a k' _ c rest (Bool.eq_false_iff.mpr hp),
          ih rest (by simp)]

/-- Two replacements commute when the keys are separated (`noOv` both
ways) and each value is nonempty and shares no character with the other
key. -/
theorem strReplace_comm (a1 : Char) (k1' v1 : Str) (a2 : Char) (k2' v2 : Str)
    (hv1 : v1 ≠ []) (hv2 : v2 ≠ [])
    (hd1 : ∀ c ∈ v1, c ∉ (a2 :: k2')) (hd2 : ∀ c ∈ v2, c ∉ (a1 :: k1'))
    (h12 : noOv (a1 :: k1') (a2 :: k2')) (h21 : noOv (a2 :: k2') (a1 :: k1')) :
    ∀ s, strReplace (a2 :: k2') v2 (strReplace (a1 :: k1') v1 s) =
         strReplace (a1 :: k1') v1 (strReplace (a2 :: k2') v2 s) := by
  intro s
  induction s using strLenInd with
  | _ s ih =>
  cases s with
  | nil => rfl
  | cons c rest =>
    by_cases hp1 : (a1 :: k1').isPrefixOf (c :: rest) = true
    · rcases List.isPrefixOf_iff_prefix.mp hp1 with ⟨t, ht⟩
      have hlt : t.length < (c :: rest).length := by
        rw [← ht]
        simp [List.length_append]
        omega
      rw [← ht, strReplace_append_self,
        strReplace_append_noOv a2 k2' v2 (a1 :: k1') h12 (a1 :: k1') t
          (List.suffix_refl _),
        strReplace_append_self,
        strReplace_append_disjoint a2 k2' v2 v1 _ hd1,
        ih t hlt]
    · by_cases hp2 : (a2 :: k2').isPrefixOf (c :: rest) = true
      · rcases List.isPrefixOf_iff_prefix.mp hp2 with ⟨t, ht⟩
        have hlt : t.length < (c :: rest).length := by
          rw [← ht]
          simp [List.length_append]
          omega
        rw [← ht, strReplace_append_self,
          strReplace_append_noOv a1 k1' v1 (a2 :: k2') h21 (a2 :: k2') t
            (List.suffix_refl _),
          strReplace_append_self,
          strReplace_append_disjoint a1 k1' v1 v2 _ hd2,
          ih t hlt]
      · have hb1 : (a1 :: k1').isPrefixOf (c :: rest) = false := Bool.eq_false_iff.mpr hp1
        have hb2 : (a2 :: k2').isPrefixOf (c :: rest) = false := Bool.eq_false_iff.mpr hp2
        have hq2 : (a2 :: k2').isPrefixOf (c :: strReplace (a1 :: k1') v1 rest) = false := by
          rw [isPrefixOf_false_iff]
          intro hpre
          rcases List.cons_prefix_cons.mp hpre with ⟨ha, hkt⟩
          by_cases hk2n : k2' = []
          · subst hk2n
            exact (isPrefixOf_false_iff _ _).mp hb2
              (List.cons_prefix_cons.mpr ⟨ha, List.nil_prefix⟩)
          · rcases prefix_strReplace a1 k1' v1 hv1 rest k2' hk2n hkt with h | ⟨ch, hch, hchv⟩
            · exact (isPrefixOf_false_iff _ _).mp hb2
                (List.cons_prefix_cons.mpr ⟨ha, h⟩)
            · exact hd1 ch hchv (List.mem_cons_of_mem a2 hch)
        have hq1 : (a1 :: k1').isPrefixOf (c :: strReplace (a2 :: k2') v2 rest) = false := by
          rw [isPrefixOf_false_iff]
          intro hpre
          rcases List.cons_prefix_cons.mp hpre with ⟨ha, hkt⟩
          by_cases hk1n : k1' = []
          · subst hk1n
            exact (isPrefixOf_false_iff _ _).mp hb1
              (List.cons_prefix_cons.mpr ⟨ha, List.nil_prefix⟩)
          · rcases prefix_strReplace a2 k2' v2 hv2 rest k1' hk1n hkt with h | ⟨ch, hch, hchv⟩
            · exact (isPrefixOf_false_iff _ _).mp hb1
                (List.cons_prefix_cons.mpr ⟨ha, h⟩)
            · exact hd2 ch hchv (List.mem_cons_of_mem a1 hch)
        rw [strReplace_neg a1 k1' v1 c rest hb1, strReplace_neg a2 k2' v2 c _ hq2,
          strReplace_neg a2 k2' v2 c rest hb2, strReplace_neg a1 k1' v1 c _ hq1,
          ih rest (by simp)]

theorem replace_placeholders_cons (s : Str) (p : Str × Str) (l : List (Str × Str)) :
    replace_placeholders s (p :: l) = replace_placeholders (strReplace p.1 p.2 s) l := rfl

/-- Fold version of the kill lemma: after the whole pass, the key of any
processed pair has no occurrence left, provided every pair of the list
has a nonempty key, a nonempty value, and values share no character with
`k`. -/
theorem replace_placeholders_no_key (k : Str) (hk : k ≠ []) :
    ∀ (l : List (Str × Str)) (s : Str),
      (∀ p ∈ l, p.1 ≠ [] ∧ p.2 ≠ []) →
      (∀ p ∈ l, ∀ c ∈ p.2, c ∉ k) →
      ((∃ v, (k, v) ∈ l) ∨ ¬ (k <:+: s)) →
      ¬ (k <:+: replace_placeholders s l) := by
  intro l
  induction l with
  | nil =>
    intro s _ _ hst
    rcases hst with ⟨v, hv⟩ | hns
    · simp at hv
    · exact hns
  | cons p rest ih =>
    intro s hne hd hst
    obtain ⟨pk, pv⟩ := p
    rcases hne (pk, pv) (List.mem_cons_self _ rest) with ⟨hp1, hp2⟩
    rw [replace_placeholders_cons]
    have hdp : ∀ c ∈ pv, c ∉ k :=
      fun c hc => hd (pk, pv) (List.mem_cons_self _ rest) c hc
    rcases hst with ⟨v, hv⟩ | hns
    · rcases List.mem_cons.mp hv with heq | hmem
      · have hkk : k = pk := (Prod.mk.injEq k v pk pv).mp heq |>.1
        have hnokey : ¬ (k <:+: strReplace pk pv s) := by
          cases hpk : pk with
          | nil => exact absurd (hkk.trans hpk) hk
          | cons a k' =>
            rw [hkk, hpk]
            refine strReplace_no_key a k' pv hp2 ?_ s
            intro c hc
            rw [← hpk, ← hkk]
            exact hdp c hc
        exact ih (strReplace pk pv s)
          (fun q hq => hne q (List.mem_cons_of_mem _ hq))
          (fun q hq => hd q (List.mem_cons_of_mem _ hq))
          (Or.inr hnokey)
      · exact ih (strReplace pk pv s)
          (fun q hq => hne q (List.mem_cons_of_mem _ hq))
          (fun q hq => hd q (List.mem_cons_of_mem _ hq))
          (Or.inl ⟨v, hmem⟩)
    · have hnokey : ¬ (k <:+: strReplace pk pv s) := by
        cases hpk : pk with
        | nil => exact absurd hpk hp1
        | cons a p' =>
          exact strReplace_no_new a p' pv k hp2 hk hdp s hns
      exact ih (strReplace pk pv s)
        (fun q hq => hne q (List.mem_cons_of_mem _ hq))
        (fun q hq => hd q (List.mem_cons_of_mem _ hq))
        (Or.inr hnokey)

/-! Boolean bundles of the side conditions, so that witnesses can be
checked by `decide`. -/

/-- Every key and value of the list is nonempty, and no value shares a
character with any key of the list. -/
def benignPairsB (l : List (Str × Str)) : Bool :=
  l.all (fun p => !(p.1.isEmpty) && !(p.2.isEmpty)) &&
  l.all (fun p => l.all (fun q => p.2.all (fun c => !(q.1.contains c))))

/-- Keys of the list are pairwise distinct. -/
def keysNodupB : List Str → Bool
  | [] => true
  | k :: ks => if k ∈ ks then false else keysNodupB ks

/-- Distinct keys of the list are pairwise separated (`noOvB`). -/
def sepKeysB (l : List (Str × Str)) : Bool :=
  l.all (fun p => l.all (fun q => if p.1 = q.1 then true else noOvB p.1 q.1))

/-- All side conditions of the order-invariance theorem. -/
def goodPairsB (l : List (Str × Str)) : Bool :=
  benignPairsB l && keysNodupB (l.map Prod.fst) && sepKeysB l

theorem benignPairsB_ne (l : List (Str × Str)) (h : benignPairsB l = true) :
    ∀ p ∈ l, p.1 ≠ [] ∧ p.2 ≠ [] := by
  intro p hp
  rcases Bool.and_eq_true_iff.mp h with ⟨h1, _⟩
  have := (List.all_eq_true.mp h1) p hp
  rcases Bool.and_eq_true_iff.mp this with ⟨ha, hb⟩
  constructor
  · intro hc
    rw [hc] at ha
    simp at ha
  · intro hc
    rw [hc] at hb
    simp at hb

theorem benignPairsB_disjoint (l : List (Str × Str)) (h : benignPairsB l = true) :
    ∀ p ∈ l, ∀ q ∈ l, ∀ c ∈ p.2, c ∉ q.1 := by
  intro p hp q hq c hc hck
  rcases Bool.and_eq_true_iff.mp h with ⟨_, h2⟩
  have := List.all_eq_true.mp ((List.all_eq_true.mp h2) p hp) q hq
  have hcc := (List.all_eq_true.mp this) c hc
  rw [show (q.1.contains c) = List.elem c q.1 from rfl] at hcc
  rw [List.elem_iff.mpr hck] at hcc
  simp at hcc

theorem keysNodupB_nodup (ks : List Str) (h : keysNodupB ks = true) : ks.Nodup := by
  induction ks with
  | nil => exact List.nodup_nil
  | cons k ks ih =>
    rw [keysNodupB] at h
    by_cases hm : k ∈ ks
    · rw [if_pos hm] at h
      cases h
    · rw [if_neg hm] at h
      exact List.nodup_cons.mpr ⟨hm, ih h⟩

theorem sepKeysB_noOv (l : List (Str × Str)) (h : sepKeysB l = true) :
    ∀ p ∈ l, ∀ q ∈ l, p.1 ≠ q.1 → noOv p.1 q.1 := by
  intro p hp q hq hne
  have := List.all_eq_true.mp ((List.all_eq_true.mp h) p hp) q hq
  rw [if_neg hne] at this
  exact noOv_of_noOvB p.1 q.1 this

/-- Claim C1, counterexample: the two pair lists are permutations of one
another — two legal iteration orders of the same `HashMap` built by
`generate_entry_pages` for an entry whose `content.html` contains the
text `$TITLE` — yet `replace_placeholders` renders different bytes, so
two runs of `generate_site` over this unchanged input tree are not
guaranteed byte-identical output. -/
theorem claim_C1_counterexample :
    ([(kCONTENT, "$TITLE".data), (kTITLE, "t".data), (kNAVCLOUD, [])]
        : List (Str × Str)).Perm
      [(kTITLE, "t".data), (kCONTENT, "$TITLE".data), (kNAVCLOUD, [])] ∧
    replace_placeholders "A $CONTENT B".data
      [(kCONTENT, "$TITLE".data), (kTITLE, "t".data), (kNAVCLOUD, [])] ≠
    replace_placeholders "A $CONTENT B".data
      [(kTITLE, "t".data), (kCONTENT, "$TITLE".data), (kNAVCLOUD, [])] := by
  constructor
  · decide
  · decide

/-- Claim C1, amended: the rendered output is a function of the input
and of the `HashMap` iteration orders; it is independent of those orders
— hence byte-identical across runs — provided every placeholder key and
value is nonempty, no value shares a character with any key, and
distinct keys do not overlap (`goodPairsB`); and the sorted tag list
(tag-page order and nav cloud) is independent of the unspecified
`HashMap` key order outright. -/
theorem claim_C1_amended (l1 l2 : List (Str × Str)) (ks1 ks2 : List Str) (s : Str)
    (hperm : l1.Perm l2) (hgood : goodPairsB l1 = true) (hks : ks1.Perm ks2) :
    replace_placeholders s l1 = replace_placeholders s l2 ∧
    sortStrs ks1 = sortStrs ks2 := by
  constructor
  · rcases Bool.and_eq_true_iff.mp hgood with ⟨hg1, hsep⟩
    rcases Bool.and_eq_true_iff.mp hg1 with ⟨hben, hnod⟩
    have hinj := List.inj_on_of_nodup_map (keysNodupB_nodup _ hnod)
    show List.foldl (fun acc p => strReplace p.1 p.2 acc) s l1 =
      List.foldl (fun acc p => strReplace p.1 p.2 acc) s l2
    refine hperm.foldl_eq' ?_ s
    intro x hx y hy z
    by_cases hxy : x = y
    · rw [hxy]
    · have hkne : x.1 ≠ y.1 := fun hcc => hxy (hinj hx hy hcc)
      rcases benignPairsB_ne l1 hben x hx with ⟨hx1, hx2⟩
      rcases benignPairsB_ne l1 hben y hy with ⟨hy1, hy2⟩
      cases hxk : x.1 with
      | nil => exact absurd hxk hx1
      | cons a1 k1' =>
        cases hyk : y.1 with
        | nil => exact absurd hyk hy1
        | cons a2 k2' =>
          exact strReplace_comm a1 k1' x.2 a2 k2' y.2 hx2 hy2
            (by rw [← hyk]
                exact fun c hc => benignPairsB_disjoint l1 hben x hx y hy c hc)
            (by rw [← hxk]
                exact fun c hc => benignPairsB_disjoint l1 hben y hy x hx c hc)
            (by rw [← hxk, ← hyk]; exact sepKeysB_noOv l1 hsep x hx y hy hkne)
            (by rw [← hxk, ← hyk]
                exact sepKeysB_noOv l1 hsep y hy x hx (fun hcc => hkne hcc.symm))
            z
  · exact sortStrs_eq_of_perm ks1 ks2 hks

/-- Witness for claim C1 (amended) at the generator's real placeholder
maps: benign values, permuted pair order and permuted key order. -/
theorem claim_C1_amended_witness :
    replace_placeholders "A $CONTENT B $TITLE $NAVCLOUD".data
      [(kCONTENT, "x".data), (kTITLE, "y".data), (kNAVCLOUD, "z".data)] =
    replace_placeholders "A $CONTENT B $TITLE $NAVCLOUD".data
      [(kNAVCLOUD, "z".data), (kTITLE, "y".data), (kCONTENT, "x".data)] ∧
    sortStrs ["b".data, "a".data] = sortStrs ["a".data, "b".data] :=
  claim_C1_amended
    [(kCONTENT, "x".data), (kTITLE, "y".data), (kNAVCLOUD, "z".data)]
    [(kNAVCLOUD, "z".data), (kTITLE, "y".data), (kCONTENT, "x".data)]
    ["b".data, "a".data] ["a".data, "b".data]
    "A $CONTENT B $TITLE $NAVCLOUD".data
    (by decide) (by decide) (by decide)

/-- Claim C2, counterexample: the value inserted for key `$A` contains
the other key `$B`; because `$B` is processed later in this iteration
order, the token is substituted — not left verbatim — and the output is
`x` with no `$B` remaining. -/
theorem claim_C2_counterexample :
    replace_placeholders "$A".data
      [("$A".data, "$B".data), ("$B".data, "x".data)] = "x".data ∧
    ¬ ("$B".data <:+: replace_placeholders "$A".data
      [("$A".data, "$B".data), ("$B".data, "x".data)]) := by
  constructor
  · decide
  · decide

/-- Claim C2, amended: within one key's pass nothing inserted is
re-scanned for that same key (`strReplace k k s = s`), but later keys do
re-scan the progressively modified string: after the fold, the LAST
key's token is gone everywhere — including from inside values inserted
for earlier keys — whenever that key is nonempty and its value is
nonempty and shares no character with it. -/
theorem claim_C2_amended (k1 v1 k2 v2 s : Str) (hk2 : k2 ≠ []) (hv2 : v2 ≠ [])
    (hd : ∀ c ∈ v2, c ∉ k2) :
    strReplace k1 k1 s = s ∧
    ¬ (k2 <:+: replace_placeholders s [(k1, v1), (k2, v2)]) := by
  constructor
  · exact strReplace_self k1 s
  · cases k2 with
    | nil => exact absurd rfl hk2
    | cons a2 k2' =>
      show ¬ ((a2 :: k2') <:+: strReplace (a2 :: k2') v2 (strReplace k1 v1 s))
      exact strReplace_no_key a2 k2' v2 hv2 hd (strReplace k1 v1 s)

/-- Witness for claim C2 (amended): the earlier value `$B` contains the
later key `$B`, and the later pass removes it anyway. -/
theorem claim_C2_amended_witness :
    strReplace "$A".data "$A".data "u$Av".data = "u$Av".data ∧
    ¬ ("$B".data <:+: replace_placeholders "u$Av".data
      [("$A".data, "$B".data), ("$B".data, "x".data)]) :=
  claim_C2_amended "$A".data "$B".data "$B".data "x".data "u$Av".data
    (by decide) (by decide) (by decide)

/-- Claim C4, counterexample: the map replaces `ab` by `a`; the single
value `a` contains no other key's token (there is no other key), yet the
output of rendering the template `abb` is `ab`, which still contains the
replaced key `ab` — replacement and the tail of the template re-form the
token. -/
theorem claim_C4_counterexample :
    replace_placeholders "abb".data [("ab".data, "a".data)] = "ab".data ∧
    ("ab".data <:+: replace_placeholders "abb".data [("ab".data, "a".data)]) := by
  constructor
  · decide
  · decide

/-- Claim C4, amended: rendering with the empty map returns the template
unchanged; and a rendered key leaves no occurrence in the output
provided every key and value of the map is nonempty and no value shares
a character with any key of the map (the counterexample shows that
merely requiring values to avoid the other keys' tokens is not enough —
an inserted value and adjacent template text can re-form a key). -/
theorem claim_C4_amended (T k v : Str) (l : List (Str × Str))
    (hb : benignPairsB l = true) (hm : (k, v) ∈ l) :
    replace_placeholders T [] = T ∧ ¬ (k <:+: replace_placeholders T l) := by
  constructor
  · rfl
  · have hk : k ≠ [] := by
      have := (benignPairsB_ne l hb (k, v) hm).1
      exact this
    refine replace_placeholders_no_key k hk l T (benignPairsB_ne l hb) ?_ (Or.inl ⟨v, hm⟩)
    intro p hp c hc
    exact benignPairsB_disjoint l hb p hp (k, v) hm c hc

/-- Witness for claim C4 (amended) at the generator's real map shape. -/
theorem claim_C4_amended_witness :
    replace_placeholders "$TITLE: $CONTENT ($NAVCLOUD)".data [] =
      "$TITLE: $CONTENT ($NAVCLOUD)".data ∧
    ¬ (kTITLE <:+: replace_placeholders "$TITLE: $CONTENT ($NAVCLOUD)".data
      [(kCONTENT, "x".data), (kTITLE, "y".data), (kNAVCLOUD, "z".data)]) :=
  claim_C4_amended "$TITLE: $CONTENT ($NAVCLOUD)".data kTITLE "y".data
    [(kCONTENT, "x".data), (kTITLE, "y".data), (kNAVCLOUD, "z".data)]
    (by decide) (by decide)

/-! Fold lemmas for `generate_entry_pages`. -/

theorem entryStep_pages (base : Str) (o : EntryGenOut) (e : EntryDir) :
    (entryStep base o e).pages = o.pages ++ (entryStep base ⟨[], [], []⟩ e).pages := by
  cases h : e.contentHtml <;> simp [entryStep, h]

theorem entryStep_dirs (base : Str) (o : EntryGenOut) (e : EntryDir) :
    (entryStep base o e).dirs = o.dirs ++ (entryStep base ⟨[], [], []⟩ e).dirs := by
  cases h : e.contentHtml <;> simp [entryStep, h]

theorem entryStep_diags (base : Str) (o : EntryGenOut) (e : EntryDir) :
    (entryStep base o e).diags = o.diags ++ (entryStep base ⟨[], [], []⟩ e).diags := by
  cases h : e.contentHtml <;> simp [entryStep, h]

theorem entryFold_pages (base : Str) :
    ∀ (es : List EntryDir) (o : EntryGenOut),
      (es.foldl (entryStep base) o).pages =
        o.pages ++ (es.foldl (entryStep base) ⟨[], [], []⟩).pages := by
  intro es
  induction es with
  | nil => intro o; simp
  | cons e es ih =>
    intro o
    rw [List.foldl_cons, List.foldl_cons, ih (entryStep base o e),
      ih (entryStep base ⟨[], [], []⟩ e), entryStep_pages base o e,
      List.append_assoc]

theorem entryFold_dirs (base : Str) :
    ∀ (es : List EntryDir) (o : EntryGenOut),
      (es.foldl (entryStep base) o).dirs =
        o.dirs ++ (es.foldl (entryStep base) ⟨[], [], []⟩).dirs := by
  intro es
  induction es with
  | nil => intro o; simp
  | cons e es ih =>
    intro o
    rw [List.foldl_cons, List.foldl_cons, ih (entryStep base o e),
      ih (entryStep base ⟨[], [], []⟩ e), entryStep_dirs base o e,
      List.append_assoc]

theorem entryFold_diags (base : Str) :
    ∀ (es : List EntryDir) (o : EntryGenOut),
      (es.foldl (entryStep base) o).diags =
        o.diags ++ (es.foldl (entryStep base) ⟨[], [], []⟩).diags := by
  intro es
  induction es with
  | nil => intro o; simp
  | cons e es ih =>
    intro o
    rw [List.foldl_cons, List.foldl_cons, ih (entryStep base o e),
      ih (entryStep base ⟨[], [], []⟩ e), entryStep_diags base o e,
      List.append_assoc]

/-- Every page produced by the entry loop belongs to an entry of the list
that has a `content.html`, and has the shape the loop builds. -/
theorem mem_entryFold_pages (base : Str) :
    ∀ (es : List EntryDir) (o : EntryGenOut) (pg : Page),
      pg ∈ (es.foldl (entryStep base) o).pages →
      pg ∈ o.pages ∨ ∃ e ∈ es, ∃ c, e.contentHtml = some c ∧
        pg = ⟨("public/entries/".data ++ e.name) ++ "/index.html".data, base,
          [(kCONTENT, c), (kTITLE, e.name), (kNAVCLOUD, [])]⟩ := by
  intro es
  induction es with
  | nil => intro o pg h; exact Or.inl h
  | cons e es ih =>
    intro o pg h
    rw [List.foldl_cons] at h
    rcases ih (entryStep base o e) pg h with hin | ⟨e2, he2, c, hc, hpg⟩
    · cases hch : e.contentHtml with
      | none =>
        simp only [entryStep, hch] at hin
        exact Or.inl hin
      | some c =>
        simp only [entryStep, hch] at hin
        rcases List.mem_append.mp hin with hin | hin
        · exact Or.inl hin
        · refine Or.inr ⟨e, List.mem_cons_self e es, c, hch, ?_⟩
          simpa using hin
    · exact Or.inr ⟨e2, List.mem_cons_of_mem e he2, c, hc, hpg⟩

/-- Claim C9: an entry directory without `content.html` produces no page,
is logged, the remaining entries are processed and the call returns
success. -/
theorem claim_C9 (base : Str) (pre post : List EntryDir) (e : EntryDir)
    (h : e.contentHtml = none) :
    ∃ o o2 : EntryGenOut,
      generate_entry_pages base (some (pre ++ e :: post)) = Except.ok o ∧
      generate_entry_pages base (some (pre ++ post)) = Except.ok o2 ∧
      o.pages = o2.pages ∧
      Diag.noContentHtml (entryPath e.name) ∈ o.diags := by
  refine ⟨_, _, rfl, rfl, ?_, ?_⟩
  · show ((pre ++ e :: post).foldl (entryStep base) ⟨[], [], []⟩).pages =
      ((pre ++ post).foldl (entryStep base) ⟨[], [], []⟩).pages
    rw [List.foldl_append, List.foldl_append, List.foldl_cons,
      entryFold_pages base post
        (entryStep base (List.foldl (entryStep base) ⟨[], [], []⟩ pre) e),
      entryFold_pages base post (List.foldl (entryStep base) ⟨[], [], []⟩ pre),
      entryStep_pages]
    simp [entryStep, h]
  · show Diag.noContentHtml (entryPath e.name) ∈
      ((pre ++ e :: post).foldl (entryStep base) ⟨[], [], []⟩).diags
    rw [List.foldl_append, List.foldl_cons, entryFold_diags base post,
      entryStep_diags]
    have hmem : Diag.noContentHtml (entryPath e.name) ∈
        (entryStep base ⟨[], [], []⟩ e).diags := by
      simp [entryStep, h]
    simp only [List.mem_append]
    exact Or.inl (Or.inr hmem)

/-- Witness for claim C9 at a concrete three-entry tree. -/
theorem claim_C9_witness :
    ∃ o o2 : EntryGenOut,
      generate_entry_pages "$CONTENT".data
        (some [⟨"a".data, some "A".data, none⟩, ⟨"b".data, none, none⟩,
               ⟨"c".data, some "C".data, none⟩]) = Except.ok o ∧
      generate_entry_pages "$CONTENT".data
        (some [⟨"a".data, some "A".data, none⟩, ⟨"c".data, some "C".data, none⟩]) =
        Except.ok o2 ∧
      o.pages = o2.pages ∧
      Diag.noContentHtml (entryPath "b".data) ∈ o.diags :=
  claim_C9 "$CONTENT".data [⟨"a".data, some "A".data, none⟩]
    [⟨"c".data, some "C".data, none⟩] ⟨"b".data, none, none⟩ rfl

/-- Claim C10: the per-entry output directory is created before
`content.html` is checked, so a skipped entry still leaves its (empty)
output directory behind. -/
theorem claim_C10 (base : Str) (pre post : List EntryDir) (e : EntryDir)
    (h : e.contentHtml = none) :
    ∃ o : EntryGenOut,
      generate_entry_pages base (some (pre ++ e :: post)) = Except.ok o ∧
      ("public/entries/".data ++ e.name) ∈ o.dirs ∧
      ((∀ e2 ∈ pre ++ e :: post, e2.name = e.name → e2.contentHtml = none) →
        ∀ pg ∈ o.pages,
          pg.path ≠ ("public/entries/".data ++ e.name) ++ "/index.html".data) := by
  refine ⟨_, rfl, ?_, ?_⟩
  · show ("public/entries/".data ++ e.name) ∈
      ((pre ++ e :: post).foldl (entryStep base) ⟨[], [], []⟩).dirs
    rw [List.foldl_append, List.foldl_cons, entryFold_dirs base post,
      entryStep_dirs]
    have hmem : ("public/entries/".data ++ e.name) ∈
        (entryStep base ⟨[], [], []⟩ e).dirs := by
      simp [entryStep, h]
    simp only [List.mem_append]
    exact Or.inl (Or.inr hmem)
  · intro hall pg hpg hpath
    rcases mem_entryFold_pages base (pre ++ e :: post) ⟨[], [], []⟩ pg hpg with
      hin | ⟨e2, he2, c, hc, hpgeq⟩
    · simp at hin
    · have : (("public/entries/".data ++ e2.name) ++ "/index.html".data) =
        (("public/entries/".data ++ e.name) ++ "/index.html".data) := by
        rw [hpgeq] at hpath
        exact hpath
      have hname : e2.name = e.name := by
        have h1 := List.append_cancel_right this
        exact List.append_cancel_left h1
      have : e2.contentHtml = none := hall e2 he2 hname
      rw [hc] at this
      cases this

/-- Witness for claim C10 at a concrete tree. -/
theorem claim_C10_witness :
    ∃ o : EntryGenOut,
      generate_entry_pages "$CONTENT".data
        (some [⟨"a".data, some "A".data, none⟩, ⟨"b".data, none, none⟩]) =
        Except.ok o ∧
      ("public/entries/".data ++ "b".data) ∈ o.dirs ∧
      ((∀ e2 ∈ [(⟨"a".data, some "A".data, none⟩ : EntryDir),
          ⟨"b".data, none, none⟩], e2.name = "b".data → e2.contentHtml = none) →
        ∀ pg ∈ o.pages,
          pg.path ≠ ("public/entries/".data ++ "b".data) ++ "/index.html".data) :=
  claim_C10 "$CONTENT".data [⟨"a".data, some "A".data, none⟩] []
    ⟨"b".data, none, none⟩ rfl

/-- Claim C3, counterexample: with the entries root missing (and every
other input present), `generate_site` aborts with an error coming from
`generate_entry_pages` — it does not continue to produce the home page
and entries listing. -/
theorem claim_C3_counterexample :
    (generate_site ⟨some "b".data, some "a".data, some "p".data, true, true,
      none⟩).2 = Except.error GenErr.entryPages := by
  rfl

/-- Claim C3, amended: the recoverable handling exists only inside
`filter_entries_by_tag` (which logs and returns an empty index), but
`generate_site` calls `generate_entry_pages` first, whose
`fs::read_dir(entries_dir)?` propagates the failure, so the whole run
aborts before the home page or entries listing is written. -/
theorem claim_C3_amended (inp : SiteInput) (base about proj : Str)
    (hb : inp.baseHtml = some base) (ha : inp.aboutHtml = some about)
    (hpr : inp.projectName = some proj) (hs : inp.staticOk = true)
    (hi : inp.imagesOk = true) (he : inp.entries = none) :
    (generate_site inp).2 = Except.error GenErr.entryPages ∧
    (filter_entries_by_tag inp.entries).1 = [] ∧
    Diag.entriesDirMissing ∈ (filter_entries_by_tag inp.entries).2 := by
  obtain ⟨f1, f2, f3, f4, f5, f6⟩ := inp
  simp only at hb ha hpr hs hi he
  subst hb
  subst ha
  subst hpr
  subst hs
  subst hi
  subst he
  refine ⟨?_, ?_, ?_⟩
  · simp [generate_site, generate_entry_pages]
  · simp [filter_entries_by_tag]
  · simp [filter_entries_by_tag]

/-- Witness for claim C3 (amended) at a concrete input. -/
theorem claim_C3_amended_witness :
    (generate_site ⟨some "B".data, some "A".data, some "P".data, true, true,
      none⟩).2 = Except.error GenErr.entryPages ∧
    (filter_entries_by_tag (none : Option (List EntryDir))).1 = [] ∧
    Diag.entriesDirMissing ∈
      (filter_entries_by_tag (none : Option (List EntryDir))).2 :=
  claim_C3_amended ⟨some "B".data, some "A".data, some "P".data, true, true, none⟩
    "B".data "A".data "P".data rfl rfl rfl rfl rfl rfl

/-! Invariants of the tag index. -/

/-- Possible members of `pushTag m t p`. -/
theorem mem_pushTag :
    ∀ (m : List (Str × List Str)) (t p : Str) (x : Str × List Str),
      x ∈ pushTag m t p →
      x ∈ m ∨ (∃ ps, (t, ps) ∈ m ∧ x = (t, ps ++ [p])) ∨ x = (t, [p]) := by
  intro m
  induction m with
  | nil =>
    intro t p x hx
    simp only [pushTag] at hx
    rcases List.mem_cons.mp hx with hx | hx
    · exact Or.inr (Or.inr hx)
    · simp at hx
  | cons hd rest ih =>
    intro t p x hx
    obtain ⟨t0, ps⟩ := hd
    by_cases h : t0 = t
    · subst h
      rw [pushTag, if_pos rfl] at hx
      rcases List.mem_cons.mp hx with hx | hx
      · exact Or.inr (Or.inl ⟨ps, List.mem_cons_self _ _, hx⟩)
      · exact Or.inl (List.mem_cons_of_mem _ hx)
    · rw [pushTag, if_neg h] at hx
      rcases List.mem_cons.mp hx with hx | hx
      · exact Or.inl (by rw [hx]; exact List.mem_cons_self _ _)
      · rcases ih t p x hx with h1 | h2 | h3
        · exact Or.inl (List.mem_cons_of_mem _ h1)
        · rcases h2 with ⟨ps2, hmem, hx2⟩
          exact Or.inr (Or.inl ⟨ps2, List.mem_cons_of_mem _ hmem, hx2⟩)
        · exact Or.inr (Or.inr h3)

/-- The deduplicating collector behind `get_tags` yields distinct tags. -/
theorem getTagsList_nodup (c : Str) : (getTagsList c).Nodup := by
  have main : ∀ (toks : List Str) (acc : List Str), acc.Nodup →
      (toks.foldl tagInsert acc).Nodup := by
    intro toks
    induction toks with
    | nil => intro acc h; exact h
    | cons tok toks ih =>
      intro acc h
      rw [List.foldl_cons]
      apply ih
      show (tagInsert acc tok).Nodup
      rw [tagInsert]
      by_cases h1 : trimStr tok = []
      · simpa [h1]
      · by_cases h2 : trimStr tok ∈ acc
        · simpa [h1, h2]
        · simp only [h1, h2, if_false, if_neg]
          simp [List.nodup_append, h, h2]
  exact main _ [] List.nodup_nil

/-- Invariant of the inner loop: pushing one fresh path `p` under a
duplicate-free tag list keeps every tag's path list nonempty and
duplicate-free, and only ever adds `p`. -/
theorem pushFold_inv (p : Str) (seen : List Str) :
    ∀ (tags : List Str) (m : List (Str × List Str)),
      tags.Nodup →
      (∀ x ∈ m, x.2 ≠ [] ∧ x.2.Nodup ∧ (∀ q ∈ x.2, q ∈ seen ∨ q = p) ∧
        (x.1 ∈ tags → p ∉ x.2)) →
      ∀ x ∈ tags.foldl (fun m t => pushTag m t p) m,
        x.2 ≠ [] ∧ x.2.Nodup ∧ (∀ q ∈ x.2, q ∈ seen ∨ q = p) := by
  intro tags
  induction tags with
  | nil =>
    intro m _ hm x hx
    exact ⟨(hm x hx).1, (hm x hx).2.1, (hm x hx).2.2.1⟩
  | cons t ts ih =>
    intro m hnd hm x hx
    rw [List.foldl_cons] at hx
    rcases List.nodup_cons.mp hnd with ⟨htts, hts⟩
    refine ih (pushTag m t p) hts ?_ x hx
    intro y hy
    rcases mem_pushTag m t p y hy with h1 | ⟨ps, hmem, hy2⟩ | h3
    · rcases hm y h1 with ⟨a1, a2, a3, a4⟩
      exact ⟨a1, a2, a3, fun hyt => a4 (List.mem_cons_of_mem t hyt)⟩
    · rcases hm (t, ps) hmem with ⟨a1, a2, a3, a4⟩
      have hpnot : p ∉ ps := a4 (List.mem_cons_self t ts)
      rw [hy2]
      refine ⟨by simp, ?_, ?_, ?_⟩
      · rw [List.nodup_append]
        exact ⟨a2, List.nodup_singleton p, by
          intro q hq hqp
          rw [List.mem_singleton.mp hqp] at hq
          exact hpnot hq⟩
      · intro q hq
        rcases List.mem_append.mp hq with hq | hq
        · exact a3 q hq
        · right
          exact List.mem_singleton.mp hq
      · intro hyt
        exact absurd hyt htts
    · rw [h3]
      refine ⟨by simp, List.nodup_singleton p, ?_, ?_⟩
      · intro q hq
        right
        exact List.mem_singleton.mp hq
      · intro hyt
        exact absurd hyt htts

/-- Invariant of the outer loop of `filter_entries_by_tag`: with
pairwise-distinct entry paths, every tag's path list stays nonempty and
duplicate-free. -/
theorem tagFold_inv :
    ∀ (es : List EntryDir) (m : List (Str × List Str)) (d : List Diag)
      (seen : List Str),
      (∀ x ∈ m, x.2 ≠ [] ∧ x.2.Nodup ∧ ∀ q ∈ x.2, q ∈ seen) →
      (∀ e ∈ es, entryPath e.name ∉ seen) →
      ((es.map fun e => entryPath e.name).Nodup) →
      ∀ x ∈ (es.foldl tagStep (m, d)).1, x.2 ≠ [] ∧ x.2.Nodup := by
  intro es
  induction es with
  | nil =>
    intro m d seen hm _ _ x hx
    exact ⟨(hm x hx).1, (hm x hx).2.1⟩
  | cons e es ih =>
    intro m d seen hm hfresh hnd x hx
    rw [List.foldl_cons] at hx
    rcases List.nodup_cons.mp hnd with ⟨hpfresh, hndtail⟩
    have hpseen : entryPath e.name ∉ seen :=
      hfresh e (List.mem_cons_self e es)
    have hstep : (tagStep (m, d) e) =
        ((get_tags (entryPath e.name ++ "/tags.txt".data) e.tagsTxt).1.foldl
          (fun m t => pushTag m t (entryPath e.name)) m,
         d ++ (get_tags (entryPath e.name ++ "/tags.txt".data) e.tagsTxt).2) := rfl
    rw [hstep] at hx
    have htagsnd : (get_tags (entryPath e.name ++ "/tags.txt".data) e.tagsTxt).1.Nodup := by
      cases ht : e.tagsTxt with
      | none => simp [get_tags]
      | some c =>
        show (getTagsList c).Nodup
        exact getTagsList_nodup c
    have hinner := pushFold_inv (entryPath e.name) seen
      (get_tags (entryPath e.name ++ "/tags.txt".data) e.tagsTxt).1 m htagsnd
      (by
        intro y hy
        rcases hm y hy with ⟨a1, a2, a3⟩
        refine ⟨a1, a2, fun q hq => Or.inl (a3 q hq), fun _ hp => ?_⟩
        exact hpseen (a3 _ hp))
    refine ih _ _ (seen ++ [entryPath e.name]) ?_ ?_ hndtail x hx
    · intro y hy
      rcases hinner y hy with ⟨a1, a2, a3⟩
      refine ⟨a1, a2, fun q hq => ?_⟩
      rcases a3 q hq with hq2 | hq2
      · exact List.mem_append.mpr (Or.inl hq2)
      · rw [hq2]
        exact List.mem_append.mpr (Or.inr (List.mem_singleton.mpr rfl))
    · intro e2 he2 hmem
      rcases List.mem_append.mp hmem with hmem | hmem
      · exact hfresh e2 (List.mem_cons_of_mem e he2) hmem
      · have heq : entryPath e2.name = entryPath e.name := List.mem_singleton.mp hmem
        refine hpfresh ?_
        show entryPath e.name ∈ List.map (fun e => entryPath e.name) es
        rw [← heq]
        exact List.mem_map.mpr ⟨e2, he2, rfl⟩

/-- Claim C5: with distinct entry directory names (as on a real
filesystem), every tag in the index has a nonempty path list, and no
path is listed twice under one tag, even if `tags.txt` repeats the
tag. -/
theorem claim_C5 (es : List EntryDir) (hn : (es.map EntryDir.name).Nodup) :
    ∀ t ps, (t, ps) ∈ (filter_entries_by_tag (some es)).1 →
      ps ≠ [] ∧ ps.Nodup := by
  intro t ps hmem
  have hpaths : (es.map fun e => entryPath e.name).Nodup := by
    have heq : (es.map fun e => entryPath e.name) =
        (es.map EntryDir.name).map (fun n => "entries/".data ++ n) := by
      rw [List.map_map]
      rfl
    rw [heq]
    exact hn.map (fun a b h2 => List.append_cancel_left h2)
  exact tagFold_inv es [] [] [] (by simp) (fun e _ => by simp) hpaths (t, ps) hmem

/-- Witness for claim C5: one entry whose `tags.txt` repeats tag `x`;
both tag lists are nonempty and duplicate-free. -/
theorem claim_C5_witness :
    (("x".data, [entryPath "a".data]) ∈
      (filter_entries_by_tag (some [⟨"a".data, none, some "x y x".data⟩])).1) ∧
    ([entryPath "a".data] ≠ [] ∧ ([entryPath "a".data] : List Str).Nodup) :=
  ⟨by decide,
   claim_C5 [⟨"a".data, none, some "x y x".data⟩] (by decide) "x".data
     [entryPath "a".data] (by decide)⟩

/-- Claim C6: an entry whose `tags.txt` is absent or unreadable yields
the empty tag set, a logged warning, and contributes to no tag: the
index over `es ++ [e]` equals the index over `es`. -/
theorem claim_C6 (es : List EntryDir) (e : EntryDir) (h : e.tagsTxt = none) :
    (get_tags (entryPath e.name ++ "/tags.txt".data) e.tagsTxt).1 = [] ∧
    (filter_entries_by_tag (some (es ++ [e]))).1 =
      (filter_entries_by_tag (some es)).1 ∧
    Diag.tagsReadError (entryPath e.name ++ "/tags.txt".data) ∈
      (filter_entries_by_tag (some (es ++ [e]))).2 := by
  refine ⟨by rw [h]; rfl, ?_, ?_⟩
  · show ((es ++ [e]).foldl tagStep ([], [])).1 = (es.foldl tagStep ([], [])).1
    rw [List.foldl_append, List.foldl_cons, List.foldl_nil]
    simp [tagStep, get_tags, h]
  · show Diag.tagsReadError (entryPath e.name ++ "/tags.txt".data) ∈
      ((es ++ [e]).foldl tagStep ([], [])).2
    rw [List.foldl_append, List.foldl_cons, List.foldl_nil]
    simp [tagStep, get_tags, h]

/-- Witness for claim C6 at a concrete tree. -/
theorem claim_C6_witness :
    (get_tags (entryPath "b".data ++ "/tags.txt".data) none).1 = [] ∧
    (filter_entries_by_tag (some ([⟨"a".data, none, some "x".data⟩] ++
      [⟨"b".data, none, none⟩]))).1 =
      (filter_entries_by_tag (some [⟨"a".data, none, some "x".data⟩])).1 ∧
    Diag.tagsReadError (entryPath "b".data ++ "/tags.txt".data) ∈
      (filter_entries_by_tag (some ([⟨"a".data, none, some "x".data⟩] ++
        [⟨"b".data, none, none⟩]))).2 :=
  claim_C6 [⟨"a".data, none, some "x".data⟩] ⟨"b".data, none, none⟩ rfl

/-! Ordering of tag pages and of the navigation cloud. -/

theorem lookupTag_isSome (m : List (Str × List Str)) (t : Str)
    (h : t ∈ m.map Prod.fst) : ∃ ps, lookupTag m t = some ps := by
  induction m with
  | nil => simp at h
  | cons x rest ih =>
    obtain ⟨t0, ps0⟩ := x
    by_cases he : t0 = t
    · exact ⟨ps0, by rw [lookupTag, if_pos he]⟩
    · have : t ∈ rest.map Prod.fst := by
        rcases List.mem_cons.mp h with h1 | h1
        · exact absurd h1.symm he
        · exact h1
      rcases ih this with ⟨ps, hps⟩
      exact ⟨ps, by rw [lookupTag, if_neg he]; exact hps⟩

theorem tagPagesFold_paths (base : Str) (m : List (Str × List Str)) :
    ∀ (ts : List Str) (acc : List Page),
      (∀ t ∈ ts, t ∈ m.map Prod.fst) →
      ((ts.foldl
        (fun pages t =>
          match lookupTag m t with
          | some paths => pages ++ [tagPage base t paths]
          | none => pages) acc).map Page.path) =
        acc.map Page.path ++
          ts.map (fun t => "public/".data ++ t ++ "/index.html".data) := by
  intro ts
  induction ts with
  | nil => intro acc _; simp
  | cons t ts ih =>
    intro acc hts
    rcases lookupTag_isSome m t (hts t (List.mem_cons_self t ts)) with ⟨ps, hps⟩
    rw [List.foldl_cons]
    have hstep :
        (match lookupTag m t with
          | some paths => acc ++ [tagPage base t paths]
          | none => acc) = acc ++ [tagPage base t ps] := by
      rw [hps]
    rw [hstep, ih (acc ++ [tagPage base t ps])
      (fun t2 ht2 => hts t2 (List.mem_cons_of_mem t ht2))]
    simp [tagPage, List.append_assoc]

/-- Concatenating loop of the nav cloud as a flat list of links. -/
theorem navCloudOf_join :
    ∀ (ts : List Str) , navCloudOf ts = (ts.map navTagLink).flatten := by
  have main : ∀ (ts : List Str) (acc : Str),
      ts.foldl (fun acc t => acc ++ navTagLink t) acc =
        acc ++ (ts.map navTagLink).flatten := by
    intro ts
    induction ts with
    | nil => intro acc; simp
    | cons t ts ih =>
      intro acc
      rw [List.foldl_cons, ih (acc ++ navTagLink t)]
      simp [List.append_assoc]
  intro ts
  exact main ts []

/-- Claim C7: `generate_tag_pages` emits exactly one page per tag,
following `sortStrs` of the key list — the same list that drives the
nav cloud of the home page — and that list is lexicographically sorted
and a permutation of the tag keys. -/
theorem claim_C7 (base : Str) (m : List (Str × List Str)) :
    (generate_tag_pages base m).map Page.path =
      (sortStrs (m.map Prod.fst)).map
        (fun t => "public/".data ++ t ++ "/index.html".data) ∧
    navCloudOf (sortStrs (m.map Prod.fst)) =
      ((sortStrs (m.map Prod.fst)).map navTagLink).flatten ∧
    List.Pairwise LexLE (sortStrs (m.map Prod.fst)) ∧
    (sortStrs (m.map Prod.fst)).Perm (m.map Prod.fst) := by
  refine ⟨?_, navCloudOf_join _, sortStrs_pairwise _, sortStrs_perm _⟩
  show ((sortStrs (m.map Prod.fst)).foldl
      (fun pages t =>
        match lookupTag m t with
        | some paths => pages ++ [tagPage base t paths]
        | none => pages) []).map Page.path = _
  rw [tagPagesFold_paths base m (sortStrs (m.map Prod.fst)) []
    (fun t ht => (sortStrs_perm (m.map Prod.fst)).mem_iff.mp ht)]
  simp

/-- Pages written by a run, empty if the run aborted. -/
def pagesOfResult (r : List Diag × Except GenErr SiteOut) : List Page :=
  match r.2 with
  | Except.ok o => o.pages
  | Except.error _ => []

/-- Every page produced by the tag loop is a `tagPage`. -/
theorem mem_tagPagesFold (base : Str) (m : List (Str × List Str)) :
    ∀ (ts : List Str) (acc : List Page) (pg : Page),
      pg ∈ ts.foldl
        (fun pages t =>
          match lookupTag m t with
          | some paths => pages ++ [tagPage base t paths]
          | none => pages) acc →
      pg ∈ acc ∨ ∃ t paths, pg = tagPage base t paths := by
  intro ts
  induction ts with
  | nil => intro acc pg h; exact Or.inl h
  | cons t ts ih =>
    intro acc pg h
    rw [List.foldl_cons] at h
    cases hl : lookupTag m t with
    | none =>
      simp only [hl] at h
      exact ih acc pg h
    | some paths =>
      simp only [hl] at h
      rcases ih (acc ++ [tagPage base t paths]) pg h with hin | hex
      · rcases List.mem_append.mp hin with hin | hin
        · exact Or.inl hin
        · exact Or.inr ⟨t, paths, List.mem_singleton.mp hin⟩
      · exact Or.inr hex

/-- Claim C8, counterexample: the base template of this input contains a
`$NAVCLOUD` of its own; on the home page that placeholder is replaced by
the empty string — the rendered home page is `[]hi` — even though the
nav cloud of the run is the nonempty link for tag `t`, which appears
nowhere in the page. -/
theorem claim_C8_counterexample :
    ((pagesOfResult (generate_site ⟨some "[$NAVCLOUD]$CONTENT".data,
        some "hi".data, some "p".data, true, true,
        some [⟨"e".data, some "c".data, some "t".data⟩]⟩)).filter
      (fun pg => pg.path == "public/index.html".data)).map renderPage =
      ["[]hi".data] ∧
    navTagLink "t".data ≠ [] ∧
    ¬ (navTagLink "t".data <:+: "[]hi".data) := by
  refine ⟨by decide, by decide, by decide⟩

/-- Claim C8, amended: in EVERY rendered page — the home page included —
the base-template `$NAVCLOUD` placeholder is substituted with the empty
string; the home page carries the nav cloud only inside its `$CONTENT`
value, which is the about text with ITS `$NAVCLOUD` resolved to the full
nav cloud. -/
theorem claim_C8_amended (inp : SiteInput) (base about proj : Str)
    (es : List EntryDir)
    (hb : inp.baseHtml = some base) (ha : inp.aboutHtml = some about)
    (hpr : inp.projectName = some proj) (hs : inp.staticOk = true)
    (hi : inp.imagesOk = true) (he : inp.entries = some es) :
    (∀ pg ∈ pagesOfResult (generate_site inp),
      (kNAVCLOUD, ([] : Str)) ∈ pg.pairs) ∧
    (Page.mk "public/index.html".data base
      [(kCONTENT, replace_placeholders about
          [(kNAVCLOUD, navCloudOf (sortStrs
            ((filter_entries_by_tag inp.entries).1.map Prod.fst)))]),
       (kTITLE, proj), (kNAVCLOUD, [])] ∈
      pagesOfResult (generate_site inp)) := by
  obtain ⟨f1, f2, f3, f4, f5, f6⟩ := inp
  simp only at hb ha hpr hs hi he
  subst hb
  subst ha
  subst hpr
  subst hs
  subst hi
  subst he
  have hpages : pagesOfResult (generate_site
      ⟨some base, some about, some proj, true, true, some es⟩) =
      (es.foldl (entryStep base) ⟨[], [], []⟩).pages ++
      generate_tag_pages base (filter_entries_by_tag (some es)).1 ++
      [Page.mk "public/index.html".data base
        [(kCONTENT, replace_placeholders about
            [(kNAVCLOUD, navCloudOf (sortStrs
              ((filter_entries_by_tag (some es)).1.map Prod.fst)))]),
         (kTITLE, proj), (kNAVCLOUD, [])],
       Page.mk "public/entries/index.html".data base
        [(kCONTENT,
            (sortStrs (((es.foldl (entryStep base) ⟨[], [], []⟩).dirs).map
              fileName)).foldl (fun acc t => acc ++ entriesIndexLink t) []),
         (kTITLE, "Entries".data), (kNAVCLOUD, [])]] := rfl
  constructor
  · intro pg hpg
    rw [hpages] at hpg
    rcases List.mem_append.mp hpg with hpg | hpg
    · rcases List.mem_append.mp hpg with hpg | hpg
      · rcases mem_entryFold_pages base es ⟨[], [], []⟩ pg hpg with hin | ⟨e, _, c, _, hpgeq⟩
        · simp at hin
        · rw [hpgeq]
          simp
      · rcases mem_tagPagesFold base (filter_entries_by_tag (some es)).1
          (sortStrs ((filter_entries_by_tag (some es)).1.map Prod.fst)) [] pg hpg with
          hin | ⟨t, paths, hpgeq⟩
        · simp at hin
        · rw [hpgeq]
          simp [tagPage]
    · rcases List.mem_cons.mp hpg with hpgeq | hpg
      · rw [hpgeq]
        simp
      · rcases List.mem_cons.mp hpg with hpgeq | hpg
        · rw [hpgeq]
          simp
        · simp at hpg
  · rw [hpages]
    refine List.mem_append.mpr (Or.inr ?_)
    exact List.mem_cons_self _ _

/-- Witness for claim C8 (amended) at a concrete one-entry input. -/
theorem claim_C8_amended_witness :
    (kNAVCLOUD, ([] : Str)) ∈ (Page.mk "public/index.html".data
      "[$NAVCLOUD]$CONTENT".data
      [(kCONTENT, replace_placeholders "hi".data
          [(kNAVCLOUD, navCloudOf (sortStrs
            ((filter_entries_by_tag
              (some [⟨"e".data, some "c".data, some "t".data⟩])).1.map
                Prod.fst)))]),
       (kTITLE, "p".data), (kNAVCLOUD, [])] : Page).pairs ∧
    (Page.mk "public/index.html".data "[$NAVCLOUD]$CONTENT".data
      [(kCONTENT, replace_placeholders "hi".data
          [(kNAVCLOUD, navCloudOf (sortStrs
            ((filter_entries_by_tag
              (some [⟨"e".data, some "c".data, some "t".data⟩])).1.map
                Prod.fst)))]),
       (kTITLE, "p".data), (kNAVCLOUD, [])] : Page) ∈
      pagesOfResult (generate_site ⟨some "[$NAVCLOUD]$CONTENT".data,
        some "hi".data, some "p".data, true, true,
        some [⟨"e".data, some "c".data, some "t".data⟩]⟩) := by
  have h := claim_C8_amended
    ⟨some "[$NAVCLOUD]$CONTENT".data, some "hi".data, some "p".data, true, true,
      some [⟨"e".data, some "c".data, some "t".data⟩]⟩
    "[$NAVCLOUD]$CONTENT".data "hi".data "p".data
    [⟨"e".data, some "c".data, some "t".data⟩] rfl rfl rfl rfl rfl rfl
  exact ⟨h.1 _ h.2, h.2⟩

example : strReplace "ab".data "c".data "xabyab".data = "xcyc".data := by decide
example : strReplace "ab".data "a".data "abb".data = "ab".data := by decide
example : strReplace [] "-".data "abc".data = "-a-b-c-".data := by decide
example : splitWs "  x  yz ".data = ["x".data, "yz".data] := by decide
example : sortStrs ["b".data, "a".data, "ab".data] =
    ["a".data, "ab".data, "b".data] := by decide
example : replace_placeholders "A $CONTENT B".data
    [(kCONTENT, "$TITLE".data), (kTITLE, "t".data), (kNAVCLOUD, [])] =
    "A t B".data := by decide
example : replace_placeholders "A $CONTENT B".data
    [(kTITLE, "t".data), (kCONTENT, "$TITLE".data), (kNAVCLOUD, [])] =
    "A $TITLE B".data := by decide
